import Mathlib

/-!
Verification of the jana_tools repository: a shallow embedding of the
reflection data model, the amplitude-derivation rule, the
symmetry-equivalence grouping and merging engine, the R-factor engine and
the z-score engine, together with theorems settling the specification
claims.

Numeric values parsed from the fixed-column files are modelled as real
numbers.  Python float division by zero produces `inf`; where a claim
depends on that (the `Iweight` clamp) the affected fragment is modelled
over `ENNReal`, where `(0 : ENNReal)⁻¹ = ⊤` mirrors the float behaviour.
Raising an exception is modelled with `Except Unit`.
-/

open scoped Classical ENNReal

namespace Jana

/-! ### Integer Miller indices and 3x3 integer matrices

`np.matmul(symop, hkl)` on integer matrices is embedded with an explicit
component representation: `V3` is a Miller index, `M3` a 3x3 integer
matrix given by its rows. -/

/-- A Miller index `(h, k, l)`. -/
abbrev V3 := ℤ × ℤ × ℤ

/-- A 3x3 integer matrix, given by its three rows. -/
structure M3 where
  r1 : V3
  r2 : V3
  r3 : V3
  deriving DecidableEq

/-- Dot product of two integer triples. -/
def dotV (a b : V3) : ℤ :=
  a.1 * b.1 + a.2.1 * b.2.1 + a.2.2 * b.2.2

/-- Matrix-vector product `np.matmul(symop, hkl)`. -/
def mulV (m : M3) (v : V3) : V3 :=
  (dotV m.r1 v, dotV m.r2 v, dotV m.r3 v)

/-- Transpose of a 3x3 integer matrix. -/
def trM (m : M3) : M3 :=
  ⟨(m.r1.1, m.r2.1, m.r3.1), (m.r1.2.1, m.r2.2.1, m.r3.2.1),
   (m.r1.2.2, m.r2.2.2, m.r3.2.2)⟩

/-- Matrix-matrix product: row `i` of `mulM a b` is row `i` of `a`
multiplied with the columns of `b`. -/
def mulM (a b : M3) : M3 :=
  ⟨mulV (trM b) a.r1, mulV (trM b) a.r2, mulV (trM b) a.r3⟩

/-- The identity matrix. -/
def idM : M3 := ⟨(1, 0, 0), (0, 1, 0), (0, 0, 1)⟩

/-- Determinant of a 3x3 integer matrix. -/
def detM (m : M3) : ℤ :=
  m.r1.1 * (m.r2.2.1 * m.r3.2.2 - m.r2.2.2 * m.r3.2.1)
    - m.r1.2.1 * (m.r2.1 * m.r3.2.2 - m.r2.2.2 * m.r3.1)
    + m.r1.2.2 * (m.r2.1 * m.r3.2.1 - m.r2.2.1 * m.r3.1)

/-- Scalar multiple of a matrix. -/
def smulM (c : ℤ) (m : M3) : M3 :=
  ⟨(c * m.r1.1, c * m.r1.2.1, c * m.r1.2.2),
   (c * m.r2.1, c * m.r2.2.1, c * m.r2.2.2),
   (c * m.r3.1, c * m.r3.2.1, c * m.r3.2.2)⟩

/-- Adjugate (transposed cofactor matrix) of a 3x3 integer matrix. -/
def adjM (m : M3) : M3 :=
  ⟨(m.r2.2.1 * m.r3.2.2 - m.r2.2.2 * m.r3.2.1,
    m.r1.2.2 * m.r3.2.1 - m.r1.2.1 * m.r3.2.2,
    m.r1.2.1 * m.r2.2.2 - m.r1.2.2 * m.r2.2.1),
   (m.r2.2.2 * m.r3.1 - m.r2.1 * m.r3.2.2,
    m.r1.1 * m.r3.2.2 - m.r1.2.2 * m.r3.1,
    m.r1.2.2 * m.r2.1 - m.r1.1 * m.r2.2.2),
   (m.r2.1 * m.r3.2.1 - m.r2.2.1 * m.r3.1,
    m.r1.2.1 * m.r3.1 - m.r1.1 * m.r3.2.1,
    m.r1.1 * m.r2.2.1 - m.r1.2.1 * m.r2.1)⟩

/-- Embeds line 224 of `_3DED_utils.py` (`read_m50`):
`np.linalg.inv(rotation.transpose()).astype("int")`.  For the
signed-permutation rotation matrices occurring there the float inversion
is exact and `det = ±1`, so the integer result equals
`det(Mᵀ) * adj(Mᵀ)` (for `det = ±1` this is the exact inverse of `Mᵀ`,
since `inv = adj/det = det * adj` when `det² = 1`). -/
def reciprocalRS (m : M3) : M3 :=
  smulM (detM (trM m)) (adjM (trM m))

/-! ### xyz2matrix (`_3DED_utils.py` lines 668-686)

The operator string is already split on whitespace into three tokens;
each token is modelled as a list of characters and the Python substring
test `"-x" in token` as a list-infix test. -/

/-- Bool-valued list prefix test. -/
def isPrefixL : List Char → List Char → Bool
  | [], _ => true
  | _ :: _, [] => false
  | a :: as, b :: bs => a == b && isPrefixL as bs

/-- Bool-valued list infix test, the model of Python substring
containment `p in tok`. -/
def isInfixL (p : List Char) : List Char → Bool
  | [] => isPrefixL p []
  | b :: bs => isPrefixL p (b :: bs) || isInfixL p bs

/-- One matrix entry of `xyz2matrix`: `-1` if `"-" + axis` occurs in the
token, else `1` if `axis` occurs, else `0`. -/
def xyzEntry (tok : List Char) (axis : Char) : ℤ :=
  if isInfixL ['-', axis] tok then -1
  else if isInfixL [axis] tok then 1
  else 0

/-- Embeds `xyz2matrix` for an operator already split into the three
coordinate tokens `e1 e2 e3`. -/
def xyz2matrix (e1 e2 e3 : List Char) : M3 :=
  ⟨(xyzEntry e1 'x', xyzEntry e1 'y', xyzEntry e1 'z'),
   (xyzEntry e2 'x', xyzEntry e2 'y', xyzEntry e2 'z'),
   (xyzEntry e3 'x', xyzEntry e3 'y', xyzEntry e3 'z')⟩

/-- The six signed standard basis vectors: the possible rows of a
signed-permutation matrix. -/
def signedUnits : List V3 :=
  [(1, 0, 0), (-1, 0, 0), (0, 1, 0), (0, -1, 0), (0, 0, 1), (0, 0, -1)]

/-- A signed-permutation matrix: every row is a signed standard basis
vector and the matrix is nonsingular (equivalently, the three rows hit
three distinct columns). -/
def IsSignedPerm (m : M3) : Prop :=
  m.r1 ∈ signedUnits ∧ m.r2 ∈ signedUnits ∧ m.r3 ∈ signedUnits ∧ detM m ≠ 0

instance (m : M3) : Decidable (IsSignedPerm m) := by
  unfold IsSignedPerm
  infer_instance

/-! ### The symmetry-equivalence map (`merge_reflections_post_refinement`
lines 389-406, identical code at lines 267-284 of
`R_factors_merge_postref.py`)

The Python dictionary `Equiv` is modelled as an association list to
which pairs are appended only when the key is absent, so lookup of an
existing key is unchanged by later insertions, exactly as for a dict. -/

/-- Association-list model of the `Equiv` dictionary. -/
abbrev EqvMap := List (V3 × V3)

/-- First-match lookup, the model of `Equiv[key]` / `key in Equiv`. -/
def lookupV : EqvMap → V3 → Option V3
  | [], _ => none
  | (k, v) :: rest, x => if k = x then some v else lookupV rest x

/-- Inner loop of the grouping pass: for each symmetry operation `op`,
insert `op * hkl ↦ hkl` unless the key is already present
(`if sHKL not in Equiv: Equiv[sHKL] = hkl`). -/
def addOrbit : List M3 → V3 → EqvMap → EqvMap
  | [], _, E => E
  | op :: rest, h, E =>
      addOrbit rest h
        (if (lookupV E (mulV op h)).isSome then E else E ++ [(mulV op h, h)])

/-- Outer loop of the grouping pass: scan the table of Miller indices and
expand the orbit of every index not yet present in `Equiv`. -/
def buildEquiv : List V3 → List M3 → EqvMap → EqvMap
  | [], _, E => E
  | h :: hs, ops, E =>
      buildEquiv hs ops (if (lookupV E h).isSome then E else addOrbit ops h E)

/-- The `Equiv` dictionary after the grouping pass over the table `hkls`
with the reciprocal-space operations `ops`. -/
def equivOf (hkls : List V3) (ops : List M3) : EqvMap :=
  buildEquiv hkls ops []

/-- The group representatives ("mother" reflections) in scan order: the
keys of the per-group data containers `FO`, `IC`, ... of the source. -/
def repsFrom : List V3 → List M3 → EqvMap → List V3
  | [], _, _ => []
  | h :: hs, ops, E =>
      if (lookupV E h).isSome then repsFrom hs ops E
      else h :: repsFrom hs ops (addOrbit ops h E)

/-- Representatives of the full grouping pass. -/
def repsOf (hkls : List V3) (ops : List M3) : List V3 :=
  repsFrom hkls ops []

/-! ### Amplitude derivation (`read_m83`, `_3DED_utils.py` lines 324-330;
identical branch at lines 157-162 of `z-score_absolute_structure_M83.py`) -/

/-- The `Fo` of `read_m83`: weak branch (`Io < 0.01*Isigma`) clamps negative
intensities to `0`, otherwise the square root of the intensity. -/
noncomputable def m83Fo (Io Isigma : ℝ) : ℝ :=
  if Io < 0.01 * Isigma then (if Io < 0 then 0 else Real.sqrt Io)
  else Real.sqrt Io

/-- The `Fsigma` of `read_m83`: `5*sqrt(Isigma)` on the weak branch,
`Isigma/(2*Fo)` on the strong branch. -/
noncomputable def m83Fsigma (Io Isigma : ℝ) : ℝ :=
  if Io < 0.01 * Isigma then 5 * Real.sqrt Isigma
  else Isigma / (2 * Real.sqrt Io)

/-- Merged-table `FOM` (`merge_reflections_post_refinement` lines
442-444): negative mean intensities are clamped to `0` before the square
root. -/
noncomputable def mergedFOM (IOM : ℝ) : ℝ :=
  Real.sqrt (max IOM 0)

/-- Merged-table `FSM` (lines 445-446): the strong mask is
`IOM >= 0.01*ISM`, the weak mask is `IOM < 0.01*ISM`. -/
noncomputable def mergedFSM (IOM ISM : ℝ) : ℝ :=
  if 0.01 * ISM ≤ IOM then ISM / (2 * Real.sqrt IOM)
  else 5 * Real.sqrt ISM

/-! ### Reflection record of `read_m83` (`_3DED_utils.py` lines 301-333)

The fixed-column slicing itself is not modelled; the record builder
takes the numeric values parsed from the columns.  `invw` is the value
of the `1/weight` column `Line[96:104]`. -/

/-- One parsed reflection record. -/
structure M83Rec where
  HKL : V3
  Ic : ℝ
  Io : ℝ
  Isigma : ℝ
  Fc : ℝ
  Fo : ℝ
  Fsigma : ℝ
  Fweight : ℝ
  wDF : ℝ
  Zone : ℤ
  Block : ℤ

/-- Builds the tuple appended to `m83` at line 333:
`Fweight = 1/float(Line[96:104])` is read from the file, while
`Fc, Fo, Fsigma` are derived from the intensities. -/
noncomputable def mkM83Rec (hkl : V3) (Ic Io Isigma wDF invw : ℝ)
    (Zone Block : ℤ) : M83Rec :=
  ⟨hkl, Ic, Io, Isigma, Real.sqrt Ic, m83Fo Io Isigma, m83Fsigma Io Isigma,
   1 / invw, wDF, Zone, Block⟩

/-! ### M83 format detection (`_3DED_utils.py` lines 287-296 and
`R_factors_merge_postref.py` lines 138-147) -/

/-- Format family of an M83 file. -/
inductive M83Format where
  | kinematical
  | dynamical
  | unknown
  deriving DecidableEq

/-- First-line lengths classified as kinematical (both parsers). -/
def kinLengths : List ℕ := [150, 165]

/-- First-line lengths classified as dynamical by `read_m83` in
`_3DED_utils.py` (line 292). -/
def dynLengths : List ℕ := [13, 154, 155, 156, 157, 169, 171, 172, 173, 174]

/-- First-line lengths classified as dynamical by the `read_m83` variant
in `R_factors_merge_postref.py` (line 143). -/
def dynLengthsPostref : List ℕ := [154, 155, 156, 157, 169, 171, 172, 173, 174]

/-- Format detection of `read_m83` (`_3DED_utils.py`): the
`if/elif/else` on `len(Lines[0])`. -/
def detectM83Format (n : ℕ) : M83Format :=
  if n ∈ kinLengths then .kinematical
  else if n ∈ dynLengths then .dynamical
  else .unknown

/-- Format detection of the `R_factors_merge_postref.py` parser. -/
def detectM83FormatPostref (n : ℕ) : M83Format :=
  if n ∈ kinLengths then .kinematical
  else if n ∈ dynLengthsPostref then .dynamical
  else .unknown

/-- The `Dynamical` flag that steers all later per-line processing: the
only consequence of the detection.  On the `unknown` branch the flag
stays `False`, so processing continues with the kinematical column
treatment. -/
def m83DynamicalFlag (n : ℕ) : Bool :=
  detectM83Format n = M83Format.dynamical

/-! ### Merging (`merge_reflections_post_refinement`,
`_3DED_utils.py` lines 342-452)

The merger consumes only the `HKL`, `Ic`, `Io`, `Isigma` columns of its
input: the `Fo`, `Fc`, `Fsigma`, `Fweight` columns are also accumulated
into the dictionaries `FO`, `FC`, `FS`, `FW` by the source (lines
416-421) but never contribute to the merged output (lines 434-451), so
those dead accumulators are omitted from the model. -/

/-- The input columns of the merger. -/
structure MRow where
  HKL : V3
  Ic : ℝ
  Io : ℝ
  Isigma : ℝ

/-- One row of the merged table (columns of line 451). -/
structure MergedRow where
  HKL : V3
  Ic : ℝ
  Io : ℝ
  Isigma : ℝ
  Fc : ℝ
  Fo : ℝ
  Fsigma : ℝ
  Fweight : ℝ
  obs_flag : Bool

/-- Sum of a list of reals. -/
def sumR : List ℝ → ℝ
  | [] => 0
  | x :: xs => x + sumR xs

/-- Aggregation of one reflection group (lines 434-450): arithmetic mean
intensities, root-sum-square sigma divided by the group size, amplitudes
from the merged intensities, and the observed flag `IOM > 3*ISM`. -/
noncomputable def mergedRow (rep : V3) (members : List MRow) : MergedRow :=
  let n : ℝ := members.length
  let IOM := sumR (members.map (·.Io)) / n
  let ICM := sumR (members.map (·.Ic)) / n
  let ISM := Real.sqrt (sumR (members.map (fun r => r.Isigma * r.Isigma))) / n
  let FCM := Real.sqrt ICM
  let FOM := mergedFOM IOM
  let FSM := mergedFSM IOM ISM
  let FWM := 1 / Real.sqrt (FSM * FSM + 0.0001 * (FOM * FOM))
  ⟨rep, ICM, IOM, ISM, FCM, FOM, FSM, FWM, decide (3 * ISM < IOM)⟩

/-- Embeds `merge_reflections_post_refinement`: build `Equiv`, group the rows
by their representative (groups in first-encounter order, members in row
order, exactly as the source dictionaries), aggregate each group. -/
noncomputable def merge (ops : List M3) (rows : List MRow) : List MergedRow :=
  let E := equivOf (rows.map (·.HKL)) ops
  (repsOf (rows.map (·.HKL)) ops).map
    (fun rep => mergedRow rep (rows.filter (fun r => lookupV E r.HKL = some rep)))

/-! ### Z-score engine (`z-score_absolute_structure_M83.py` lines 20-44)

`calcZP` with a selector matching the full table: the inputs are the two
`DeltaI` columns.  `p` uses `math.erf`, embedded by its integral
definition. -/

/-- The error function, the model of `math.erf`. -/
noncomputable def erfR (x : ℝ) : ℝ :=
  (2 / Real.sqrt Real.pi) * ∫ t in (0 : ℝ)..x, Real.exp (-(t ^ 2))

/-- The count `k`: the number of rows where the first refinement fits strictly
better, `np.count_nonzero(np.abs(df1) < np.abs(df2))`. -/
noncomputable def countBetter : List ℝ → List ℝ → ℕ
  | a :: as, b :: bs => (if |a| < |b| then 1 else 0) + countBetter as bs
  | _, _ => 0

/-- Embeds `calcZP(df1, df2)` for a selector matching the full table, returning
`(z, p, N, k)`; the `N = 0` early return gives `(NaN, NaN, 0, 0)`,
modelled as `none` for the two float values. -/
noncomputable def calcZP (d1 d2 : List ℝ) : Option ℝ × Option ℝ × ℕ × ℕ :=
  let N := d1.length
  if N = 0 then (none, none, 0, 0)
  else
    let k := countBetter d1 d2
    let z := ((k : ℝ) - N / 2) / (Real.sqrt N / 2)
    let p := 0.5 + 0.5 * erfR (z / Real.sqrt 2)
    (some z, some p, N, k)

/-! ### R-factor engine (`calc_R_factors`, `_3DED_utils.py` lines 456-536)

The table is a bundle of columns; `Io`, `Isigma` and `Fweight` may be
absent (`Option`).  A raised exception (`KeyError` when a missing column
is subscripted, the unbound `observed_flag` at line 512) is modelled as
`Except.error ()`.  Float NaN results are modelled as `none`. -/

/-- Column bundle passed to `calc_R_factors`. -/
structure RTable where
  Io : Option (List ℝ)
  Ic : List ℝ
  Isigma : Option (List ℝ)
  Fo : List ℝ
  Fc : List ℝ
  Fsigma : List ℝ
  Fweight : Option (List ℝ)

/-- The result record returned at lines 529-536. -/
structure RFactors where
  Robs : Option ℝ
  Rall : ℝ
  wRall : Option ℝ
  wR2all : Option ℝ
  wRobs : Option ℝ
  wR2obs : Option ℝ
  Nobs : Option ℕ
  Nall : ℕ

/-- The observed mask `Io > observed_sigma_factor * Isigma` (line 485). -/
noncomputable def obsMask (osf : ℝ) : List ℝ → List ℝ → List Bool
  | io :: ios, s :: ss =>
      (if osf * s < io then true else false) :: obsMask osf ios ss
  | _, _ => []

/-- Number of `true` entries, `np.count_nonzero(observed_flag)`. -/
def countTrue : List Bool → ℕ
  | [] => 0
  | b :: bs => (if b then 1 else 0) + countTrue bs

/-- Embeds `np.sum(np.abs(x[mask] - y[mask]))`. -/
noncomputable def sumAbsDiffM : List Bool → List ℝ → List ℝ → ℝ
  | b :: bs, x :: xs, y :: ys => (if b then |x - y| else 0) + sumAbsDiffM bs xs ys
  | _, _, _ => 0

/-- Embeds `np.sum(np.abs(x[mask]))`. -/
noncomputable def sumAbsM : List Bool → List ℝ → ℝ
  | b :: bs, x :: xs => (if b then |x| else 0) + sumAbsM bs xs
  | _, _ => 0

/-- Embeds `np.sum(np.abs(x - y))`. -/
noncomputable def sumAbsDiff : List ℝ → List ℝ → ℝ
  | x :: xs, y :: ys => |x - y| + sumAbsDiff xs ys
  | _, _ => 0

/-- Embeds `np.sum(np.abs(x))`. -/
noncomputable def sumAbs : List ℝ → ℝ
  | [] => 0
  | x :: xs => |x| + sumAbs xs

/-- Embeds `np.sum((w[mask]*(x[mask] - y[mask]))**2)`. -/
noncomputable def sumSqProdDiffM : List Bool → List ℝ → List ℝ → List ℝ → ℝ
  | b :: bs, w :: ws, x :: xs, y :: ys =>
      (if b then (w * (x - y)) ^ 2 else 0) + sumSqProdDiffM bs ws xs ys
  | _, _, _, _ => 0

/-- Embeds `np.sum((w[mask]*x[mask])**2)`. -/
noncomputable def sumSqProdM : List Bool → List ℝ → List ℝ → ℝ
  | b :: bs, w :: ws, x :: xs => (if b then (w * x) ^ 2 else 0) + sumSqProdM bs ws xs
  | _, _, _ => 0

/-- Embeds `np.sum((w*(x - y))**2)`. -/
noncomputable def sumSqProdDiff : List ℝ → List ℝ → List ℝ → ℝ
  | w :: ws, x :: xs, y :: ys => (w * (x - y)) ^ 2 + sumSqProdDiff ws xs ys
  | _, _, _ => 0

/-- Embeds `np.sum((w*x)**2)`. -/
noncomputable def sumSqProd : List ℝ → List ℝ → ℝ
  | w :: ws, x :: xs => (w * x) ^ 2 + sumSqProd ws xs
  | _, _ => 0

/-- Line 502: `Fweight = 1/(Fsigma**2 + (k*Fo)**2)**0.5`. -/
noncomputable def fweightCol (k : ℝ) : List ℝ → List ℝ → List ℝ
  | s :: ss, f :: fs => (1 / Real.sqrt (s ^ 2 + (k * f) ^ 2)) :: fweightCol k ss fs
  | _, _ => []

/-- Line 503 together with the line 510 clamp:
`Iweight = 1/((Fsigma**2 + (k*Fo)**2) * np.abs(4*Io))**0.5`, with
`Iweight[Iweight == np.inf] = 0`.  A zero denominator gives float `inf`
at line 503 and is replaced by `0` at line 510; since `ℝ` has no
infinity the two lines are modelled together (the float-faithful model
of this fragment over `ENNReal` is below). -/
noncomputable def iweightEntry (k s f io : ℝ) : ℝ :=
  let d := Real.sqrt ((s ^ 2 + (k * f) ^ 2) * |4 * io|)
  if d = 0 then 0 else 1 / d

/-- The clamped `Iweight` column from the instability-factor branch. -/
noncomputable def iweightCol (k : ℝ) : List ℝ → List ℝ → List ℝ → List ℝ
  | s :: ss, f :: fs, i :: ios => iweightEntry k s f i :: iweightCol k ss fs ios
  | _, _, _ => []

/-- Line 506: `Iweight = (Fweight**2/(4*Io))**0.5`, with the same
zero-denominator clamp.  (A negative `4*Io` makes the float power NaN;
that corner is not modelled.) -/
noncomputable def iweightFromFw : List ℝ → List ℝ → List ℝ
  | w :: ws, i :: ios =>
      (if 4 * i = 0 then 0 else Real.sqrt (w ^ 2 / (4 * i))) :: iweightFromFw ws ios
  | _, _ => []

/-- Lines 504-506: the `elif` weight source using a provided `Fweight`
column; subscripting `Io` raises when that column is missing. -/
noncomputable def weightedFallback (t : RTable) :
    Except Unit (Option (List ℝ × List ℝ)) :=
  match t.Fweight with
  | some fw =>
      match t.Io with
      | none => Except.error ()
      | some io => Except.ok (some (fw, iweightFromFw fw io))
  | none => Except.ok none

/-- Lines 499-506: weight-source resolution.  `if instability_factor:`
is Python truthiness, false for `None` and for `0.0`.  The
instability-factor branch subscripts `Io` (line 503) and raises when the
column is missing. -/
noncomputable def weightedCols (t : RTable) (instab : Option ℝ) :
    Except Unit (Option (List ℝ × List ℝ)) :=
  match instab with
  | some k =>
      if k = 0 then weightedFallback t
      else
        match t.Io with
        | none => Except.error ()
        | some io =>
            Except.ok (some (fweightCol k t.Fsigma t.Fo,
                             iweightCol k t.Fsigma t.Fo io))
  | none => weightedFallback t

/-- Embeds `calc_R_factors(reflections, observed_sigma_factor, instability_factor)`.

Line 484 tests only the presence of `Isigma`: by Python precedence the
condition is the conjunction of the truthy string literal Io with the
membership test of Isigma, so a missing `Io` column passes the guard and
the `Io` subscript at line 485 then raises.  When the branch is not taken, `observed_flag` is
never assigned, so its use at line 512 raises; this is the second
`Except.error` below. -/
noncomputable def calcRFactors (t : RTable) (osf : ℝ) (instab : Option ℝ) :
    Except Unit RFactors :=
  (match t.Isigma with
   | none => Except.ok (none, none, none)
   | some isg =>
       match t.Io with
       | none => Except.error ()
       | some io =>
           let mask := obsMask osf io isg
           Except.ok (some mask,
             some (sumAbsDiffM mask t.Fo t.Fc / sumAbsM mask t.Fo),
             some (countTrue mask))).bind fun step1 =>
  (weightedCols t instab).bind fun wcols =>
  let maskOpt := step1.1
  let robs := step1.2.1
  let nobs := step1.2.2
  let rall := sumAbsDiff t.Fo t.Fc / sumAbs t.Fo
  match wcols with
  | none =>
      Except.ok ⟨robs, rall, none, none, none, none, nobs, t.Fo.length⟩
  | some (fw, iw) =>
      if ∃ x ∈ fw, x ≠ 0 then
        match maskOpt with
        | none => Except.error ()
        | some mask =>
            let io := t.Io.getD []
            Except.ok ⟨robs, rall,
              some (Real.sqrt (sumSqProdDiff fw t.Fo t.Fc / sumSqProd fw t.Fo)),
              some (Real.sqrt (sumSqProdDiff iw io t.Ic / sumSqProd iw io)),
              some (Real.sqrt (sumSqProdDiffM mask fw t.Fo t.Fc /
                               sumSqProdM mask fw t.Fo)),
              some (Real.sqrt (sumSqProdDiffM mask iw io t.Ic /
                               sumSqProdM mask iw io)),
              nobs, t.Fo.length⟩
      else
        Except.ok ⟨robs, rall, none, none, none, none, nobs, t.Fo.length⟩

/-- View of a merged table as a `calc_R_factors` input (all columns
present). -/
noncomputable def mergedToRTable (ms : List MergedRow) : RTable :=
  { Io := some (ms.map (·.Io)),
    Ic := ms.map (·.Ic),
    Isigma := some (ms.map (·.Isigma)),
    Fo := ms.map (·.Fo),
    Fc := ms.map (·.Fc),
    Fsigma := ms.map (·.Fsigma),
    Fweight := some (ms.map (·.Fweight)) }

/-- Projection used to state results about `Robs` without evaluating the
other fields: `none` encodes a raised exception. -/
def exceptRobs (e : Except Unit RFactors) : Option (Option ℝ) :=
  match e with
  | .ok r => some r.Robs
  | .error _ => none

/-! ### Float-faithful model of the `Iweight` clamp (lines 503, 510,
518-522) over `ENNReal`

In floats, `1/0.0 = inf`; over `ENNReal`, `(0)⁻¹ = ⊤` reproduces this,
so the clamp `Iweight[Iweight == np.inf] = 0` is the conditional on `⊤`
below.  The weighted intensity R-factors are stated through their
squares, whose numerator and denominator are sums of nonnegative
terms. -/

/-- The row data entering the `Iweight` formula. -/
structure IRow where
  Io : ℝ
  Ic : ℝ
  Isigma : ℝ
  Fo : ℝ
  Fsigma : ℝ

/-- Denominator of line 503: `((Fsigma**2 + (k*Fo)**2)*np.abs(4*Io))**0.5`. -/
noncomputable def iwDenom (k : ℝ) (r : IRow) : ℝ :=
  Real.sqrt ((r.Fsigma ^ 2 + (k * r.Fo) ^ 2) * |4 * r.Io|)

/-- Line 503 over `ENNReal`: the reciprocal, `⊤` for a zero denominator
exactly as the float result is `inf`. -/
noncomputable def iweightRawE (k : ℝ) (r : IRow) : ℝ≥0∞ :=
  (ENNReal.ofReal (iwDenom k r))⁻¹

/-- Line 510: `Iweight[Iweight == np.inf] = 0`. -/
noncomputable def iweightClampedE (k : ℝ) (r : IRow) : ℝ≥0∞ :=
  if iweightRawE k r = ⊤ then 0 else iweightRawE k r

/-- Square of a weighted intensity R-factor (lines 518-522):
`sum((Iweight*(Io - Ic))**2) / sum((Iweight*Io)**2)`. -/
noncomputable def wR2SqE (k : ℝ) (rows : List IRow) : ℝ≥0∞ :=
  (rows.map (fun r => iweightClampedE k r ^ 2 * ENNReal.ofReal ((r.Io - r.Ic) ^ 2))).sum
    / (rows.map (fun r => iweightClampedE k r ^ 2 * ENNReal.ofReal (r.Io ^ 2))).sum

/-- The `wR2all` squared (line 521). -/
noncomputable def wR2allSqE (k : ℝ) (rows : List IRow) : ℝ≥0∞ :=
  wR2SqE k rows

/-- The `wR2obs` squared (line 518): the sums restricted to the observed
rows `Io > observed_sigma_factor * Isigma`. -/
noncomputable def wR2obsSqE (k osf : ℝ) (rows : List IRow) : ℝ≥0∞ :=
  wR2SqE k (rows.filter (fun r => decide (osf * r.Isigma < r.Io)))

/-! ### Predicates and fixtures used by the claim statements -/

/-- The supplied operation list forms a group: it contains the identity,
is closed under composition, and contains an inverse of every element. -/
def GroupOps (ops : List M3) : Prop :=
  idM ∈ ops ∧ (∀ a ∈ ops, ∀ b ∈ ops, mulM a b ∈ ops) ∧
    (∀ a ∈ ops, ∃ b ∈ ops, mulM b a = idM)

instance (ops : List M3) : Decidable (GroupOps ops) := by
  unfold GroupOps
  infer_instance

/-- The `Equiv` dictionary is closed under the operations: the image of
any key is a key with the same value. -/
def OrbitClosed (ops : List M3) (E : EqvMap) : Prop :=
  ∀ x v, lookupV E x = some v → ∀ op ∈ ops, lookupV E (mulV op x) = some v

/-- The 90-degree rotation about the third axis, a signed permutation
whose square is not itself in a two-element operation list. -/
def rot90z : M3 := ⟨(0, -1, 0), (1, 0, 0), (0, 0, 1)⟩

/-- The inversion operation, its own inverse. -/
def negI : M3 := ⟨(-1, 0, 0), (0, -1, 0), (0, 0, -1)⟩

/-- Identity-only symmetry of the concrete test scenario. -/
def ops5 : List M3 := [idM]

/-- The three-row reflection table of the concrete test scenario. -/
noncomputable def rows5 : List MRow :=
  [⟨(1, 0, 0), 4, 4.41, 0.1⟩, ⟨(0, 1, 0), 4, 4.41, 0.1⟩, ⟨(1, 1, 0), 1, 1, 0.2⟩]

/-! ## Theorems -/

/-! ### Basic algebra of the integer matrix model -/

theorem mulV_idM (v : V3) : mulV idM v = v := by
  obtain ⟨a, b, c⟩ := v
  simp only [mulV, idM, dotV, Prod.mk.injEq]
  refine ⟨by ring, by ring, by ring⟩

theorem mulV_mulM (a b : M3) (v : V3) : mulV (mulM a b) v = mulV a (mulV b v) := by
  obtain ⟨⟨a11, a12, a13⟩, ⟨a21, a22, a23⟩, ⟨a31, a32, a33⟩⟩ := a
  obtain ⟨⟨b11, b12, b13⟩, ⟨b21, b22, b23⟩, ⟨b31, b32, b33⟩⟩ := b
  obtain ⟨x, y, z⟩ := v
  simp only [mulV, mulM, trM, dotV, Prod.mk.injEq]
  refine ⟨by ring, by ring, by ring⟩

/-- A square-root evaluation helper. -/
theorem sqrt_of_sq (a b : ℝ) (hb : 0 ≤ b) (h : b ^ 2 = a) : Real.sqrt a = b := by
  rw [← h, Real.sqrt_sq hb]

/-! ### C1 and C10: the amplitude-derivation branches -/

/-- C1: for every input pair `(Io, Isigma)` with `Isigma >= 0`, the weak
branch of the shared amplitude rule (in `read_m83` and in the merger on
merged values) is taken exactly when `Io < 0.01*Isigma`; at
`Io = 0.01*Isigma` the strong branch `Fo = sqrt(Io)`,
`Fsigma = Isigma/(2*Fo)` is used; and in both branches `Fo >= 0`. -/
theorem C1_weak_strong_branch (Io Isigma : ℝ) (h : 0 ≤ Isigma) :
    (Io < 0.01 * Isigma →
      m83Fo Io Isigma = (if Io < 0 then 0 else Real.sqrt Io) ∧
      m83Fsigma Io Isigma = 5 * Real.sqrt Isigma ∧
      mergedFSM Io Isigma = 5 * Real.sqrt Isigma) ∧
    (0.01 * Isigma ≤ Io →
      m83Fo Io Isigma = Real.sqrt Io ∧
      m83Fsigma Io Isigma = Isigma / (2 * Real.sqrt Io) ∧
      mergedFSM Io Isigma = Isigma / (2 * Real.sqrt Io)) ∧
    (Io = 0.01 * Isigma →
      m83Fo Io Isigma = Real.sqrt Io ∧
      m83Fsigma Io Isigma = Isigma / (2 * Real.sqrt Io)) ∧
    0 ≤ m83Fo Io Isigma ∧ 0 ≤ mergedFOM Io := by
  refine ⟨fun hw => ?_, fun hs => ?_, fun hb => ?_, ?_, Real.sqrt_nonneg _⟩
  · rw [m83Fo, m83Fsigma, mergedFSM, if_pos hw, if_pos hw, if_neg (not_le.mpr hw)]
    exact ⟨rfl, rfl, rfl⟩
  · have hw : ¬ Io < 0.01 * Isigma := not_lt.mpr hs
    rw [m83Fo, m83Fsigma, mergedFSM, if_neg hw, if_neg hw, if_pos hs]
    exact ⟨rfl, rfl, rfl⟩
  · have hw : ¬ Io < 0.01 * Isigma := by rw [hb]; exact lt_irrefl _
    rw [m83Fo, m83Fsigma, if_neg hw, if_neg hw]
    exact ⟨rfl, rfl⟩
  · rw [m83Fo]
    rcases lt_or_le Io (0.01 * Isigma) with h1 | h1
    · rw [if_pos h1]
      rcases lt_or_le Io 0 with h2 | h2
      · rw [if_pos h2]
      · rw [if_neg (not_lt.mpr h2)]
        exact Real.sqrt_nonneg _
    · rw [if_neg (not_lt.mpr h1)]
      exact Real.sqrt_nonneg _

theorem C1_weak_strong_branch_witness : (0 : ℝ) ≤ 1 ∧ 0 ≤ m83Fo 4 1 :=
  ⟨zero_le_one, (C1_weak_strong_branch 4 1 zero_le_one).2.2.2.1⟩

/-- C10: under `Isigma > 0`, taking the strong branch
(`not (Io < 0.01*Isigma)`) implies `Io >= 0.01*Isigma > 0`, hence
`Fo = sqrt(Io) > 0` and the divisor `2*Fo` of `Fsigma` is nonzero, so
the division is safe; no other guard is involved. -/
theorem C10_strong_branch_division_safe (Io Isigma : ℝ) (hpos : 0 < Isigma)
    (hstrong : ¬ Io < 0.01 * Isigma) :
    0 < Io ∧ m83Fo Io Isigma = Real.sqrt Io ∧ 0 < m83Fo Io Isigma ∧
    2 * Real.sqrt Io ≠ 0 ∧
    m83Fsigma Io Isigma = Isigma / (2 * Real.sqrt Io) := by
  have hio : 0.01 * Isigma ≤ Io := not_lt.mp hstrong
  have h1 : (0 : ℝ) < 0.01 * Isigma := mul_pos (by norm_num) hpos
  have hIo : 0 < Io := lt_of_lt_of_le h1 hio
  have hsq : 0 < Real.sqrt Io := Real.sqrt_pos.mpr hIo
  refine ⟨hIo, ?_, ?_, ?_, ?_⟩
  · rw [m83Fo, if_neg hstrong]
  · rw [m83Fo, if_neg hstrong]
    exact hsq
  · exact ne_of_gt (mul_pos (by norm_num) hsq)
  · rw [m83Fsigma, if_neg hstrong]

theorem C10_strong_branch_division_safe_witness :
    (0 : ℝ) < 1 ∧ ¬ (4 : ℝ) < 0.01 * 1 ∧ 0 < m83Fo 4 1 :=
  ⟨zero_lt_one, by norm_num,
    (C10_strong_branch_division_safe 4 1 zero_lt_one (by norm_num)).2.2.1⟩

/-! ### C4: the Fweight field of read_m83 -/

/-- C4 counterexample: the record parsed from a line with
`Ic = 4, Io = 4, Isigma = 2` and file weight column `1/weight = 1` has
`Fweight = 1`, which differs from
`1/sqrt(Fsigma^2 + 0.01^2*Fo^2) = 1/sqrt(0.2504)`; so `Fweight` is not
computed from the derived `Fsigma` and `Fo` with instability factor
`0.01`. -/
theorem C4_counterexample :
    (mkM83Rec (1, 1, 1) 4 4 2 0 1 1 1).Fweight = 1 ∧
    (mkM83Rec (1, 1, 1) 4 4 2 0 1 1 1).Fweight ≠
      1 / Real.sqrt ((mkM83Rec (1, 1, 1) 4 4 2 0 1 1 1).Fsigma ^ 2 +
        0.01 ^ 2 * (mkM83Rec (1, 1, 1) 4 4 2 0 1 1 1).Fo ^ 2) := by
  have hfw : (mkM83Rec (1, 1, 1) 4 4 2 0 1 1 1).Fweight = 1 := by
    simp [mkM83Rec]
  have h4 : Real.sqrt 4 = 2 := sqrt_of_sq 4 2 (by norm_num) (by norm_num)
  have hfo : (mkM83Rec (1, 1, 1) 4 4 2 0 1 1 1).Fo = 2 := by
    simp only [mkM83Rec, m83Fo]
    rw [if_neg (by norm_num)]
    exact h4
  have hfs : (mkM83Rec (1, 1, 1) 4 4 2 0 1 1 1).Fsigma = 1 / 2 := by
    simp only [mkM83Rec, m83Fsigma]
    rw [if_neg (by norm_num), h4]
    norm_num
  refine ⟨hfw, ?_⟩
  rw [hfw, hfs, hfo]
  have harg : ((1 : ℝ) / 2) ^ 2 + 0.01 ^ 2 * (2 : ℝ) ^ 2 = 0.2504 := by norm_num
  rw [harg]
  intro heq
  have hpos : 0 < Real.sqrt 0.2504 := Real.sqrt_pos.mpr (by norm_num)
  have hone : Real.sqrt (0.2504 : ℝ) = 1 := by
    field_simp at heq
    linarith
  have := Real.sq_sqrt (show (0 : ℝ) ≤ 0.2504 by norm_num)
  rw [hone] at this
  norm_num at this

/-- C4 amended: for every parsed record, `Fweight` is the reciprocal of
the value of the file weight column `Line[96:104]`, independent of the
derived `Fsigma` and `Fo`. -/
theorem C4_fweight_from_file (hkl : V3) (Ic Io Isigma wDF invw : ℝ)
    (Zone Block : ℤ) (h : invw ≠ 0) :
    (mkM83Rec hkl Ic Io Isigma wDF invw Zone Block).Fweight * invw = 1 := by
  simp only [mkM83Rec]
  field_simp

theorem C4_fweight_from_file_witness :
    (2 : ℝ) ≠ 0 ∧ (mkM83Rec (0, 0, 0) 0 0 0 0 2 0 0).Fweight * 2 = 1 :=
  ⟨two_ne_zero, C4_fweight_from_file (0, 0, 0) 0 0 0 0 2 0 0 two_ne_zero⟩

/-! ### C6: exact integer reciprocal of signed permutations -/

theorem signedPerm_recip (m : M3) (h : IsSignedPerm m) :
    mulM (trM m) (reciprocalRS m) = idM := by
  obtain ⟨r1, r2, r3⟩ := m
  obtain ⟨h1, h2, h3, hd⟩ := h
  simp only [signedUnits, List.mem_cons, List.not_mem_nil, or_false] at h1 h2 h3
  rcases h1 with h1 | h1 | h1 | h1 | h1 | h1 <;>
    rcases h2 with h2 | h2 | h2 | h2 | h2 | h2 <;>
      rcases h3 with h3 | h3 | h3 | h3 | h3 | h3 <;>
        subst h1 <;> subst h2 <;> subst h3 <;> revert hd <;> decide

/-- C6: for every operator token triple whose `xyz2matrix` parse is a
signed-permutation matrix `M`, the reciprocal-space matrix computed by
`read_m50` (the exact integer inverse of the transpose, by construction
an integer matrix) satisfies `Mᵀ * R = I` exactly. -/
theorem C6_reciprocal_exact (e1 e2 e3 : List Char)
    (h : IsSignedPerm (xyz2matrix e1 e2 e3)) :
    mulM (trM (xyz2matrix e1 e2 e3)) (reciprocalRS (xyz2matrix e1 e2 e3)) = idM :=
  signedPerm_recip _ h

theorem C6_reciprocal_exact_witness :
    IsSignedPerm (xyz2matrix ['y'] ['-', 'x'] ['z']) ∧
    mulM (trM (xyz2matrix ['y'] ['-', 'x'] ['z']))
      (reciprocalRS (xyz2matrix ['y'] ['-', 'x'] ['z'])) = idM :=
  ⟨by decide, C6_reciprocal_exact ['y'] ['-', 'x'] ['z'] (by decide)⟩

/-! ### C9: format detection from the first-line length -/

theorem detect_dyn_iff (n : ℕ) :
    detectM83Format n = M83Format.dynamical ↔ n ∈ dynLengths := by
  unfold detectM83Format
  by_cases hk : n ∈ kinLengths
  · rw [if_pos hk]
    constructor
    · intro h
      exact absurd h (by simp)
    · intro hd
      exfalso
      simp only [kinLengths, List.mem_cons, List.not_mem_nil, or_false] at hk
      rcases hk with rfl | rfl <;> simp [dynLengths] at hd
  · rw [if_neg hk]
    by_cases hd : n ∈ dynLengths
    · rw [if_pos hd]
      simp [hd]
    · rw [if_neg hd]
      simp [hd]

/-- C9 counterexample: ten distinct first-line lengths (including the
odd length 13) are all classified as dynamical by `read_m83` in
`_3DED_utils.py`, and the dynamical length list has exactly 10 elements,
not 8 as the claim states. -/
theorem C9_counterexample :
    detectM83Format 13 = M83Format.dynamical ∧
    detectM83Format 154 = M83Format.dynamical ∧
    detectM83Format 155 = M83Format.dynamical ∧
    detectM83Format 156 = M83Format.dynamical ∧
    detectM83Format 157 = M83Format.dynamical ∧
    detectM83Format 169 = M83Format.dynamical ∧
    detectM83Format 171 = M83Format.dynamical ∧
    detectM83Format 172 = M83Format.dynamical ∧
    detectM83Format 173 = M83Format.dynamical ∧
    detectM83Format 174 = M83Format.dynamical ∧
    dynLengths.length = 10 ∧ (10 : ℕ) ≠ 8 := by decide

/-- C9 amended: lengths 150 and 165 select the kinematical format; a
fixed set of exactly 10 lengths (13, 154, 155, 156, 157, 169, 171, 172,
173, 174) selects the dynamical format in `_3DED_utils.py` (the
`R_factors_merge_postref.py` variant uses the 9 lengths without 13); any
other length yields the unknown-format diagnostic, after which the
`Dynamical` flag stays false and processing continues exactly as for the
kinematical offsets. -/
theorem C9_format_detection (n : ℕ) :
    (detectM83Format n = M83Format.kinematical ↔ n ∈ kinLengths) ∧
    (detectM83Format n = M83Format.dynamical ↔ n ∈ dynLengths) ∧
    (detectM83FormatPostref n = M83Format.dynamical ↔ n ∈ dynLengthsPostref) ∧
    dynLengths.length = 10 ∧ dynLengthsPostref.length = 9 ∧
    (detectM83Format n = M83Format.unknown →
      m83DynamicalFlag n = m83DynamicalFlag 150) := by
  refine ⟨?_, detect_dyn_iff n, ?_, by decide, by decide, ?_⟩
  · unfold detectM83Format
    by_cases hk : n ∈ kinLengths
    · rw [if_pos hk]
      simp [hk]
    · rw [if_neg hk]
      by_cases hd : n ∈ dynLengths
      · rw [if_pos hd]
        simp [hk]
      · rw [if_neg hd]
        simp [hk]
  · unfold detectM83FormatPostref
    by_cases hk : n ∈ kinLengths
    · rw [if_pos hk]
      constructor
      · intro h
        exact absurd h (by simp)
      · intro hd
        exfalso
        simp only [kinLengths, List.mem_cons, List.not_mem_nil, or_false] at hk
        rcases hk with rfl | rfl <;> simp [dynLengthsPostref] at hd
    · rw [if_neg hk]
      by_cases hd : n ∈ dynLengthsPostref
      · rw [if_pos hd]
        simp [hd]
      · rw [if_neg hd]
        simp [hd]
  · intro hu
    have : detectM83Format n ≠ M83Format.dynamical := by
      rw [hu]
      simp
    unfold m83DynamicalFlag
    rw [decide_eq_false this]
    decide

theorem C9_format_detection_witness :
    (detectM83Format 150 = M83Format.kinematical ↔ 150 ∈ kinLengths) ∧
    (detectM83Format 13 = M83Format.dynamical ↔ 13 ∈ dynLengths) :=
  ⟨(C9_format_detection 150).1, (C9_format_detection 13).2.1⟩

/-! ### C7: swapping the refinements in calcZP -/

theorem countBetter_add_swap (d1 d2 : List ℝ) (hlen : d1.length = d2.length)
    (hties : ∀ p ∈ d1.zip d2, |p.1| ≠ |p.2|) :
    countBetter d1 d2 + countBetter d2 d1 = d1.length := by
  induction d1 generalizing d2 with
  | nil =>
      cases d2 with
      | nil => simp [countBetter]
      | cons b bs => simp at hlen
  | cons a as ih =>
      cases d2 with
      | nil => simp at hlen
      | cons b bs =>
          have hhead : |a| ≠ |b| := hties (a, b) (by simp)
          have htail : ∀ p ∈ as.zip bs, |p.1| ≠ |p.2| := by
            intro p hp
            exact hties p (by simp [hp])
          have hlen' : as.length = bs.length := by simpa using hlen
          have hrec := ih bs hlen' htail
          simp only [countBetter, List.length_cons]
          rcases lt_trichotomy |a| |b| with hlt | heq | hgt
          · rw [if_pos hlt, if_neg (not_lt.mpr (le_of_lt hlt))]
            omega
          · exact absurd heq hhead
          · rw [if_neg (not_lt.mpr (le_of_lt hgt)), if_pos hgt]
            omega

theorem countBetter_le_length (d1 d2 : List ℝ) :
    countBetter d1 d2 ≤ d1.length := by
  induction d1 generalizing d2 with
  | nil => simp [countBetter]
  | cons a as ih =>
      cases d2 with
      | nil => simp [countBetter]
      | cons b bs =>
          simp only [countBetter, List.length_cons]
          have := ih bs
          split <;> omega

/-- C7 counterexample: for the row-aligned single-row tables with
`DeltaI` columns `[1]` and `[-1]` (a tie in `|DeltaI|`), `calcZP` gives
`N = 1`, `k = 0` in both directions and `z = -1` in both directions, so
`k + k' = 0 ≠ N` and `z` is not negated by swapping the tables. -/
theorem C7_counterexample :
    (calcZP [(1 : ℝ)] [(-1 : ℝ)]).2.2 = (1, 0) ∧
    (calcZP [(-1 : ℝ)] [(1 : ℝ)]).2.2 = (1, 0) ∧
    (calcZP [(1 : ℝ)] [(-1 : ℝ)]).1 = some (-1) ∧
    (calcZP [(-1 : ℝ)] [(1 : ℝ)]).1 = some (-1) ∧
    ¬ ((0 : ℕ) + 0 = 1 ∧ ((-1 : ℝ)) = -(-1)) := by
  have habs : |(1 : ℝ)| = |(-1 : ℝ)| := by norm_num
  have hk1 : countBetter [(1 : ℝ)] [(-1 : ℝ)] = 0 := by
    simp only [countBetter]
    rw [if_neg (by rw [habs]; exact lt_irrefl _)]
  have hk2 : countBetter [(-1 : ℝ)] [(1 : ℝ)] = 0 := by
    simp only [countBetter]
    rw [if_neg (by rw [habs]; exact lt_irrefl _)]
  have hz : ((0 : ℕ) - (1 : ℝ) / 2) / (Real.sqrt 1 / 2) = -1 := by
    rw [Real.sqrt_one]
    norm_num
  refine ⟨?_, ?_, ?_, ?_, by norm_num⟩ <;>
    simp [calcZP, hk1, hk2, hz]

/-- C7 amended: for row-aligned nonempty tables with no tie
`|DeltaI1| = |DeltaI2|` in any row, swapping the two refinements gives
`N = N`, `k + k' = N` and `z` negated; with ties, `k` counts only
strictly better rows, so `k + k' < N` and the scores do not negate. -/
theorem C7_zscore_antisymmetry (d1 d2 : List ℝ)
    (hlen : d1.length = d2.length) (hne : d1 ≠ [])
    (hties : ∀ p ∈ d1.zip d2, |p.1| ≠ |p.2|) :
    (calcZP d2 d1).2.2.1 = (calcZP d1 d2).2.2.1 ∧
    (calcZP d1 d2).2.2.2 + (calcZP d2 d1).2.2.2 = (calcZP d1 d2).2.2.1 ∧
    (calcZP d2 d1).1 = (calcZP d1 d2).1.map (fun z => -z) := by
  have hN : d1.length ≠ 0 := fun h => hne (List.length_eq_zero.mp h)
  have hN2 : d2.length ≠ 0 := fun h => hN (by rw [hlen, h])
  have hsum := countBetter_add_swap d1 d2 hlen hties
  have hk1 := countBetter_le_length d1 d2
  unfold calcZP
  rw [if_neg hN, if_neg hN2, ← hlen]
  refine ⟨rfl, hsum, ?_⟩
  · simp only [Option.map_some]
    congr 1
    have hk2' : (countBetter d2 d1 : ℝ) = (d1.length : ℝ) - countBetter d1 d2 := by
      have : countBetter d2 d1 = d1.length - countBetter d1 d2 := by omega
      rw [this]
      push_cast [Nat.cast_sub hk1]
      ring
    rw [hk2']
    have : ((d1.length : ℝ) - countBetter d1 d2) - d1.length / 2 =
        -((countBetter d1 d2 : ℝ) - d1.length / 2) := by ring
    rw [this, neg_div]

theorem C7_zscore_antisymmetry_witness :
    [(1 : ℝ)].length = [(2 : ℝ)].length ∧ [(1 : ℝ)] ≠ [] ∧
    (∀ p ∈ [(1 : ℝ)].zip [(2 : ℝ)], |p.1| ≠ |p.2|) ∧
    (calcZP [(2 : ℝ)] [(1 : ℝ)]).1 = (calcZP [(1 : ℝ)] [(2 : ℝ)]).1.map (fun z => -z) := by
  have hties : ∀ p ∈ [(1 : ℝ)].zip [(2 : ℝ)], |p.1| ≠ |p.2| := by
    intro p hp
    simp only [List.zip_cons_cons, List.zip_nil_right, List.mem_singleton] at hp
    subst hp
    norm_num
  exact ⟨rfl, by simp, hties,
    (C7_zscore_antisymmetry [(1 : ℝ)] [(2 : ℝ)] rfl (by simp) hties).2.2⟩

/-! ### C8: the Iweight infinity clamp -/

theorem iweightClampedE_ne_top (k : ℝ) (r : IRow) : iweightClampedE k r ≠ ⊤ := by
  unfold iweightClampedE
  by_cases h : iweightRawE k r = ⊤
  · rw [if_pos h]
    exact ENNReal.zero_ne_top
  · rw [if_neg h]
    exact h

theorem iweight_inf_clamp (k : ℝ) (r : IRow) (h : r.Io = 0) :
    iweightRawE k r = ⊤ ∧ iweightClampedE k r = 0 := by
  have hd : iwDenom k r = 0 := by simp [iwDenom, h]
  have hraw : iweightRawE k r = ⊤ := by
    rw [iweightRawE, hd]
    simp
  exact ⟨hraw, by rw [iweightClampedE, if_pos hraw]⟩

theorem clamped_zero_of_denterm_zero (k : ℝ) (r : IRow)
    (h : iweightClampedE k r ^ 2 * ENNReal.ofReal (r.Io ^ 2) = 0) :
    iweightClampedE k r = 0 := by
  rcases mul_eq_zero.mp h with h1 | h1
  · exact (pow_eq_zero_iff (two_ne_zero)).mp h1
  · have hio : r.Io = 0 := by
      rw [ENNReal.ofReal_eq_zero] at h1
      have h2 := sq_nonneg r.Io
      have h3 : r.Io ^ 2 = 0 := le_antisymm h1 h2
      exact (pow_eq_zero_iff (two_ne_zero)).mp h3
    exact (iweight_inf_clamp k r hio).2

theorem listSum_ne_top (l : List ℝ≥0∞) (h : ∀ x ∈ l, x ≠ ⊤) : l.sum ≠ ⊤ := by
  induction l with
  | nil => simp
  | cons a as ih =>
      rw [List.sum_cons, Ne, ENNReal.add_eq_top]
      push_neg
      exact ⟨h a (by simp), ih fun x hx => h x (by simp [hx])⟩

theorem wR2SqE_ne_top (k : ℝ) (rows : List IRow) : wR2SqE k rows ≠ ⊤ := by
  unfold wR2SqE
  intro htop
  have hnum : (rows.map fun r =>
      iweightClampedE k r ^ 2 * ENNReal.ofReal ((r.Io - r.Ic) ^ 2)).sum ≠ ⊤ := by
    apply listSum_ne_top
    intro x hx
    simp only [List.mem_map] at hx
    obtain ⟨r, _, rfl⟩ := hx
    exact ENNReal.mul_ne_top (ENNReal.pow_ne_top (iweightClampedE_ne_top k r))
      ENNReal.ofReal_ne_top
  rw [ENNReal.div_eq_top] at htop
  rcases htop with ⟨hn, hden⟩ | ⟨hn, _⟩
  · apply hn
    rw [List.sum_eq_zero_iff] at hden ⊢
    intro x hx
    simp only [List.mem_map] at hx
    obtain ⟨r, hr, rfl⟩ := hx
    have hw : iweightClampedE k r = 0 :=
      clamped_zero_of_denterm_zero k r (hden _ (List.mem_map_of_mem _ hr))
    rw [hw]
    simp
  · exact hnum hn

/-- C8: in `calc_R_factors` a row with `Io = 0` produces an infinite
raw `Iweight` (float `1/0 = inf`, here `⊤`), the clamp of line 510
replaces it by zero before the sums, and the weighted intensity
R-factors `wR2all` and `wR2obs` are finite for any table containing
such a row together with a row of nonzero weighted `Io`. -/
theorem C8_iweight_infinity_clamp (rows : List IRow) (r : IRow)
    (hr : r ∈ rows) (h0 : r.Io = 0)
    (hnz : (rows.map fun s =>
      iweightClampedE 0.01 s ^ 2 * ENNReal.ofReal (s.Io ^ 2)).sum ≠ 0) :
    iweightRawE 0.01 r = ⊤ ∧ iweightClampedE 0.01 r = 0 ∧
    wR2allSqE 0.01 rows ≠ ⊤ ∧ wR2obsSqE 0.01 3 rows ≠ ⊤ :=
  ⟨(iweight_inf_clamp 0.01 r h0).1, (iweight_inf_clamp 0.01 r h0).2,
   by unfold wR2allSqE; exact wR2SqE_ne_top 0.01 rows,
   by unfold wR2obsSqE; exact wR2SqE_ne_top 0.01 _⟩

theorem C8_iweight_infinity_clamp_witness :
    ((⟨0, 1, 1, 1, 1⟩ : IRow) ∈ [(⟨0, 1, 1, 1, 1⟩ : IRow), ⟨1, 0, 1, 1, 1⟩]) ∧
    (⟨0, 1, 1, 1, 1⟩ : IRow).Io = 0 ∧
    ((([(⟨0, 1, 1, 1, 1⟩ : IRow), ⟨1, 0, 1, 1, 1⟩]).map fun s =>
        iweightClampedE 0.01 s ^ 2 * ENNReal.ofReal (s.Io ^ 2)).sum ≠ 0) ∧
    iweightRawE 0.01 (⟨0, 1, 1, 1, 1⟩ : IRow) = ⊤ ∧
    wR2allSqE 0.01 [(⟨0, 1, 1, 1, 1⟩ : IRow), ⟨1, 0, 1, 1, 1⟩] ≠ ⊤ := by
  have hd2 : 0 < iwDenom 0.01 (⟨1, 0, 1, 1, 1⟩ : IRow) := by
    rw [iwDenom]
    apply Real.sqrt_pos.mpr
    norm_num
  have hraw2 : iweightRawE 0.01 (⟨1, 0, 1, 1, 1⟩ : IRow) ≠ ⊤ := by
    rw [iweightRawE, Ne, ENNReal.inv_eq_top, ENNReal.ofReal_eq_zero]
    intro hle
    linarith
  have hcl2 : iweightClampedE 0.01 (⟨1, 0, 1, 1, 1⟩ : IRow) ≠ 0 := by
    rw [iweightClampedE, if_neg hraw2, iweightRawE, Ne, ENNReal.inv_eq_zero]
    exact ENNReal.ofReal_ne_top
  have hnz : (([(⟨0, 1, 1, 1, 1⟩ : IRow), ⟨1, 0, 1, 1, 1⟩]).map fun s =>
      iweightClampedE 0.01 s ^ 2 * ENNReal.ofReal (s.Io ^ 2)).sum ≠ 0 := by
    simp only [List.map_cons, List.map_nil, List.sum_cons, List.sum_nil]
    have h1 : iweightClampedE 0.01 (⟨0, 1, 1, 1, 1⟩ : IRow) ^ 2 *
        ENNReal.ofReal ((⟨0, 1, 1, 1, 1⟩ : IRow).Io ^ 2) = 0 := by
      rw [(iweight_inf_clamp 0.01 (⟨0, 1, 1, 1, 1⟩ : IRow) rfl).2]
      simp
    rw [h1, zero_add, add_zero]
    refine mul_ne_zero (pow_ne_zero 2 hcl2) ?_
    rw [Ne, ENNReal.ofReal_eq_zero]
    intro hle
    norm_num at hle
  refine ⟨by simp, rfl, hnz, ?_, ?_⟩
  · exact (C8_iweight_infinity_clamp [⟨0, 1, 1, 1, 1⟩, ⟨1, 0, 1, 1, 1⟩]
      ⟨0, 1, 1, 1, 1⟩ (by simp) rfl hnz).1
  · exact (C8_iweight_infinity_clamp [⟨0, 1, 1, 1, 1⟩, ⟨1, 0, 1, 1, 1⟩]
      ⟨0, 1, 1, 1, 1⟩ (by simp) rfl hnz).2.2.1

/-! ### C2: closure of the Equiv map -/

theorem lookupV_append_some (E : EqvMap) (p : V3 × V3) (x v : V3)
    (h : lookupV E x = some v) : lookupV (E ++ [p]) x = some v := by
  induction E with
  | nil => simp [lookupV] at h
  | cons q rest ih =>
      obtain ⟨k, w⟩ := q
      by_cases hk : k = x
      · rw [List.cons_append]
        rw [lookupV, if_pos hk] at h ⊢
        exact h
      · rw [List.cons_append]
        rw [lookupV, if_neg hk] at h ⊢
        exact ih h

theorem lookupV_append_none (E : EqvMap) (k v x : V3)
    (h : lookupV E x = none) :
    lookupV (E ++ [(k, v)]) x = if k = x then some v else none := by
  induction E with
  | nil => simp [lookupV]
  | cons q rest ih =>
      obtain ⟨k0, w0⟩ := q
      by_cases hk : k0 = x
      · rw [lookupV, if_pos hk] at h
        exact absurd h (by simp)
      · rw [lookupV, if_neg hk] at h
        rw [List.cons_append, lookupV, if_neg hk]
        exact ih h

theorem addOrbit_some (ops : List M3) (h x v : V3) (E : EqvMap)
    (hx : lookupV E x = some v) : lookupV (addOrbit ops h E) x = some v := by
  induction ops generalizing E with
  | nil => exact hx
  | cons op rest ih =>
      rw [addOrbit]
      by_cases hs : (lookupV E (mulV op h)).isSome
      · rw [if_pos hs]
        exact ih _ hx
      · rw [if_neg hs]
        exact ih _ (lookupV_append_some _ _ _ _ hx)

theorem addOrbit_mem (ops : List M3) (h x : V3) (E : EqvMap)
    (hx : lookupV E x = none) (hex : ∃ op ∈ ops, mulV op h = x) :
    lookupV (addOrbit ops h E) x = some h := by
  induction ops generalizing E with
  | nil =>
      obtain ⟨op, hop, _⟩ := hex
      simp at hop
  | cons op rest ih =>
      rw [addOrbit]
      by_cases hs : (lookupV E (mulV op h)).isSome
      · rw [if_pos hs]
        obtain ⟨op', hop', hval⟩ := hex
        rcases List.mem_cons.mp hop' with rfl | hmem
        · rw [hval, hx] at hs
          simp at hs
        · exact ih _ hx ⟨op', hmem, hval⟩
      · rw [if_neg hs]
        by_cases hxeq : mulV op h = x
        · have hnew : lookupV (E ++ [(mulV op h, h)]) x = some h := by
            rw [lookupV_append_none _ _ _ _ hx, if_pos hxeq]
          exact addOrbit_some rest h x h _ hnew
        · have hnew : lookupV (E ++ [(mulV op h, h)]) x = none := by
            rw [lookupV_append_none _ _ _ _ hx, if_neg hxeq]
          obtain ⟨op', hop', hval⟩ := hex
          rcases List.mem_cons.mp hop' with rfl | hmem
          · exact absurd hval hxeq
          · exact ih _ hnew ⟨op', hmem, hval⟩

theorem addOrbit_inv (ops : List M3) (h x v : V3) (E : EqvMap)
    (hres : lookupV (addOrbit ops h E) x = some v) :
    lookupV E x = some v ∨
      (lookupV E x = none ∧ v = h ∧ ∃ op ∈ ops, mulV op h = x) := by
  induction ops generalizing E with
  | nil => exact Or.inl hres
  | cons op rest ih =>
      rw [addOrbit] at hres
      by_cases hs : (lookupV E (mulV op h)).isSome
      · rw [if_pos hs] at hres
        rcases ih _ hres with hl | ⟨hn, hv, op', hop', hx'⟩
        · exact Or.inl hl
        · exact Or.inr ⟨hn, hv, op', List.mem_cons_of_mem _ hop', hx'⟩
      · rw [if_neg hs] at hres
        rcases ih _ hres with hl | ⟨hn, hv, op', hop', hx'⟩
        · cases hEx : lookupV E x with
          | some w =>
              have := lookupV_append_some E (mulV op h, h) x w hEx
              rw [this] at hl
              exact Or.inl hl
          | none =>
              rw [lookupV_append_none _ _ _ _ hEx] at hl
              by_cases heq : mulV op h = x
              · rw [if_pos heq] at hl
                refine Or.inr ⟨rfl, ?_, op, List.mem_cons_self _ _, heq⟩
                exact (Option.some_inj.mp hl).symm
              · rw [if_neg heq] at hl
                exact absurd hl (by simp)
        · cases hEx : lookupV E x with
          | some w =>
              have := lookupV_append_some E (mulV op h, h) x w hEx
              rw [this] at hn
              exact absurd hn (by simp)
          | none =>
              exact Or.inr ⟨rfl, hv, op', List.mem_cons_of_mem _ hop', hx'⟩

theorem orbitClosed_addOrbit (ops : List M3) (hg : GroupOps ops) (E : EqvMap)
    (h : V3) (hE : OrbitClosed ops E) (hh : lookupV E h = none) :
    OrbitClosed ops (addOrbit ops h E) := by
  obtain ⟨hid, hcl, hinv⟩ := hg
  intro x v hx op hop
  rcases addOrbit_inv ops h x v E hx with hold | ⟨hnone, hveq, g, hgmem, hgx⟩
  · exact addOrbit_some ops h _ v E (hE x v hold op hop)
  · subst hgx
    rw [hveq, ← mulV_mulM]
    have hopg : mulM op g ∈ ops := hcl op hop g hgmem
    cases hEx : lookupV E (mulV (mulM op g) h) with
    | none => exact addOrbit_mem ops h _ E hEx ⟨mulM op g, hopg, rfl⟩
    | some w =>
        exfalso
        obtain ⟨binv, hbmem, hbeq⟩ := hinv (mulM op g) hopg
        have hback := hE _ w hEx binv hbmem
        rw [← mulV_mulM, hbeq, mulV_idM, hh] at hback
        exact absurd hback (by simp)

theorem buildEquiv_some (hkls : List V3) (ops : List M3) (E : EqvMap)
    (x v : V3) (hx : lookupV E x = some v) :
    lookupV (buildEquiv hkls ops E) x = some v := by
  induction hkls generalizing E with
  | nil => exact hx
  | cons h hs ih =>
      rw [buildEquiv]
      by_cases hsome : (lookupV E h).isSome
      · rw [if_pos hsome]
        exact ih _ hx
      · rw [if_neg hsome]
        exact ih _ (addOrbit_some _ _ _ _ _ hx)

theorem orbitClosed_buildEquiv (hkls : List V3) (ops : List M3) (E : EqvMap)
    (hg : GroupOps ops) (hE : OrbitClosed ops E) :
    OrbitClosed ops (buildEquiv hkls ops E) := by
  induction hkls generalizing E with
  | nil => exact hE
  | cons h hs ih =>
      rw [buildEquiv]
      by_cases hsome : (lookupV E h).isSome
      · rw [if_pos hsome]
        exact ih _ hE
      · rw [if_neg hsome]
        have hh : lookupV E h = none := Option.not_isSome_iff_eq_none.mp hsome
        exact ih _ (orbitClosed_addOrbit ops hg E h hE hh)

theorem buildEquiv_isSome_of_mem (hkls : List V3) (ops : List M3) (E : EqvMap)
    (hid : idM ∈ ops) (x : V3) (hx : x ∈ hkls) :
    (lookupV (buildEquiv hkls ops E) x).isSome := by
  induction hkls generalizing E with
  | nil => cases hx
  | cons h hs ih =>
      rw [buildEquiv]
      rcases List.mem_cons.mp hx with rfl | hmem
      · by_cases hsome : (lookupV E x).isSome
        · rw [if_pos hsome]
          obtain ⟨w, hw⟩ := Option.isSome_iff_exists.mp hsome
          rw [buildEquiv_some hs ops E x w hw]
          rfl
        · rw [if_neg hsome]
          have hnone : lookupV E x = none := Option.not_isSome_iff_eq_none.mp hsome
          have hx' : lookupV (addOrbit ops x E) x = some x :=
            addOrbit_mem ops x x E hnone ⟨idM, hid, mulV_idM x⟩
          rw [buildEquiv_some hs ops _ x x hx']
          rfl
      · by_cases hsome : (lookupV E h).isSome
        · rw [if_pos hsome]
          exact ih _ hmem
        · rw [if_neg hsome]
          exact ih _ hmem

/-- C2 counterexample: with the supplied operations `[idM, rot90z]`
(identity included) and the reflection table `[(1,0,0), (0,1,0)]`, after
the grouping pass `Equiv[(0,1,0)]` is defined but
`Equiv[rot90z * (0,1,0)] = Equiv[(-1,0,0)]` is undefined: the claimed
closure fails because the operation list is not closed under
composition. -/
theorem C2_counterexample :
    idM ∈ [idM, rot90z] ∧ rot90z ∈ [idM, rot90z] ∧
    ((0, 1, 0) : V3) ∈ [((1, 0, 0) : V3), (0, 1, 0)] ∧
    (lookupV (equivOf [((1, 0, 0) : V3), (0, 1, 0)] [idM, rot90z]) (0, 1, 0)).isSome ∧
    lookupV (equivOf [((1, 0, 0) : V3), (0, 1, 0)] [idM, rot90z])
      (mulV rot90z (0, 1, 0)) = none := by decide

/-- C2 amended: provided the supplied reciprocal-space operation list
forms a group (contains the identity, is closed under composition, and
contains an inverse of every element), then after the grouping pass, for
every Miller index `h` occurring in the table and every supplied
operation `op`, both `Equiv[h]` and `Equiv[op * h]` are defined and
`Equiv[op * h] = Equiv[h]`.  Each group condition is needed: the
counterexample shows identity alone does not suffice (the list
`[I, rot90z]` is not composition-closed), and a composition-closed list
with a singular idempotent operation (for example a projection `P` with
`P * P = P`) splits the orbit of a table index `h` with `P * h` already
mapped to an earlier representative, so the inverse condition cannot be
dropped either.  Real space-group operation lists parsed from an M50
file are groups, so the amended property covers the intended inputs. -/
theorem C2_equiv_closure (hkls : List V3) (ops : List M3) (hg : GroupOps ops)
    (h : V3) (hh : h ∈ hkls) (op : M3) (hop : op ∈ ops) :
    (lookupV (equivOf hkls ops) h).isSome ∧
    (lookupV (equivOf hkls ops) (mulV op h)).isSome ∧
    lookupV (equivOf hkls ops) (mulV op h) = lookupV (equivOf hkls ops) h := by
  have hS := buildEquiv_isSome_of_mem hkls ops [] hg.1 h hh
  have hcl : OrbitClosed ops (equivOf hkls ops) :=
    orbitClosed_buildEquiv hkls ops [] hg (by intro x v hx; simp [lookupV] at hx)
  obtain ⟨v, hv⟩ := Option.isSome_iff_exists.mp hS
  have hv' : lookupV (equivOf hkls ops) h = some v := hv
  have himg : lookupV (equivOf hkls ops) (mulV op h) = some v := hcl h v hv' op hop
  refine ⟨hS, ?_, ?_⟩
  · rw [himg]
    rfl
  · rw [himg, hv']

theorem C2_equiv_closure_witness :
    GroupOps [idM, negI] ∧ ((1, 2, 3) : V3) ∈ [((1, 2, 3) : V3)] ∧
    negI ∈ [idM, negI] ∧
    (lookupV (equivOf [((1, 2, 3) : V3)] [idM, negI]) (1, 2, 3)).isSome ∧
    (lookupV (equivOf [((1, 2, 3) : V3)] [idM, negI]) (mulV negI (1, 2, 3))).isSome ∧
    lookupV (equivOf [((1, 2, 3) : V3)] [idM, negI]) (mulV negI (1, 2, 3)) =
      lookupV (equivOf [((1, 2, 3) : V3)] [idM, negI]) (1, 2, 3) := by
  refine ⟨by decide, by decide, by decide, ?_, ?_, ?_⟩
  · exact (C2_equiv_closure [((1, 2, 3) : V3)] [idM, negI] (by decide)
      (1, 2, 3) (by decide) negI (by decide)).1
  · exact (C2_equiv_closure [((1, 2, 3) : V3)] [idM, negI] (by decide)
      (1, 2, 3) (by decide) negI (by decide)).2.1
  · exact (C2_equiv_closure [((1, 2, 3) : V3)] [idM, negI] (by decide)
      (1, 2, 3) (by decide) negI (by decide)).2.2

/-! ### C3: missing Io / Isigma columns -/

/-- C3 counterexample: with the default `instability_factor = 0.01`, a
table that has an `Isigma` column but no `Io` column makes
`calc_R_factors` raise (the `Io` subscript at line 485, a `KeyError`),
instead of returning a complete NaN-propagating record. -/
theorem C3_counterexample :
    calcRFactors ⟨none, [], some [], [], [], [], none⟩ 3 (some 0.01) =
      Except.error () := rfl

/-- C3 amended: `calc_R_factors` does not in general survive missing
`Io`/`Isigma` columns; the exact behaviour is the following
case-by-case characterization.  (1) If `Isigma` is present and `Io`
absent, it raises (the `Io` subscript at line 485), for every
`instability_factor`.  (2) If both are absent and the instability
factor is truthy (the default `0.01` included), it raises (the `Io`
subscript in the `Iweight` formula at line 503).  (3) If only `Isigma`
is absent and the instability factor is truthy, it raises exactly when
the derived `Fweight` column has a nonzero entry — then the unassigned
`observed_flag` is used at line 512; in particular every nonempty table
of finite data raises.  (4) In the same configuration with no nonzero
`Fweight` entry (for example an empty table, where `np.any` of the
empty array is false), it does not raise and returns the complete
record with `Robs = NaN`, `Nobs = NaN`, NaN weighted R-factors, and
`Rall`, `Nall` produced.  (5) With the weighted branch disabled
(`instability_factor` None and no `Fweight` column), a table lacking
`Isigma` likewise returns that complete NaN-propagating record without
raising. -/
theorem C3_missing_columns_behavior :
    (∀ (t : RTable) (osf : ℝ) (instab : Option ℝ) (isg : List ℝ),
      t.Isigma = some isg → t.Io = none →
      calcRFactors t osf instab = Except.error ()) ∧
    (∀ (t : RTable) (osf k : ℝ), t.Isigma = none → t.Io = none → ¬ k = 0 →
      calcRFactors t osf (some k) = Except.error ()) ∧
    (∀ (t : RTable) (osf k : ℝ) (io : List ℝ),
      t.Isigma = none → t.Io = some io → ¬ k = 0 →
      (∃ x ∈ fweightCol k t.Fsigma t.Fo, x ≠ 0) →
      calcRFactors t osf (some k) = Except.error ()) ∧
    (∀ (t : RTable) (osf k : ℝ) (io : List ℝ),
      t.Isigma = none → t.Io = some io → ¬ k = 0 →
      (¬ ∃ x ∈ fweightCol k t.Fsigma t.Fo, x ≠ 0) →
      calcRFactors t osf (some k) =
        Except.ok ⟨none, sumAbsDiff t.Fo t.Fc / sumAbs t.Fo,
          none, none, none, none, none, t.Fo.length⟩) ∧
    (∀ (t : RTable) (osf : ℝ), t.Isigma = none → t.Fweight = none →
      calcRFactors t osf none =
        Except.ok ⟨none, sumAbsDiff t.Fo t.Fc / sumAbs t.Fo,
          none, none, none, none, none, t.Fo.length⟩) := by
  refine ⟨?_, ?_, ?_, ?_, ?_⟩
  · intro t osf instab isg hIs hIo
    unfold calcRFactors
    rw [hIs, hIo]
    rfl
  · intro t osf k hIs hIo hk
    unfold calcRFactors weightedCols
    rw [hIs, hIo]
    simp only [Except.bind]
    rw [if_neg hk]
  · intro t osf k io hIs hIo hk hany
    unfold calcRFactors weightedCols
    rw [hIs, hIo]
    simp only [Except.bind]
    rw [if_neg hk]
    simp only [Except.bind]
    rw [if_pos hany]
  · intro t osf k io hIs hIo hk hnone
    unfold calcRFactors weightedCols
    rw [hIs, hIo]
    simp only [Except.bind]
    rw [if_neg hk]
    simp only [Except.bind]
    rw [if_neg hnone]
  · intro t osf hIs hFw
    unfold calcRFactors weightedCols weightedFallback
    rw [hIs, hFw]
    rfl

theorem C3_missing_columns_behavior_witness :
    (⟨none, [], some [], [], [], [], none⟩ : RTable).Isigma = some [] ∧
    (⟨none, [], some [], [], [], [], none⟩ : RTable).Io = none ∧
    calcRFactors ⟨none, [], some [], [], [], [], none⟩ 3 (some 0.01) =
      Except.error () ∧
    (⟨some [], [], none, [], [], [], none⟩ : RTable).Isigma = none ∧
    (⟨some [], [], none, [], [], [], none⟩ : RTable).Io = some [] ∧
    ¬ (0.01 : ℝ) = 0 ∧
    (¬ ∃ x ∈ fweightCol 0.01 (⟨some [], [], none, [], [], [], none⟩ : RTable).Fsigma
        (⟨some [], [], none, [], [], [], none⟩ : RTable).Fo, x ≠ 0) ∧
    calcRFactors ⟨some [], [], none, [], [], [], none⟩ 3 (some 0.01) =
      Except.ok ⟨none, sumAbsDiff [] [] / sumAbs [], none, none, none, none,
        none, 0⟩ ∧
    (⟨none, [], none, [], [], [], none⟩ : RTable).Isigma = none ∧
    (⟨none, [], none, [], [], [], none⟩ : RTable).Fweight = none ∧
    calcRFactors ⟨none, [], none, [], [], [], none⟩ 3 none =
      Except.ok ⟨none, sumAbsDiff [] [] / sumAbs [], none, none, none, none,
        none, 0⟩ := by
  have hempty : ¬ ∃ x ∈ fweightCol 0.01
      (⟨some [], [], none, [], [], [], none⟩ : RTable).Fsigma
      (⟨some [], [], none, [], [], [], none⟩ : RTable).Fo, x ≠ 0 := by
    simp [fweightCol]
  refine ⟨rfl, rfl, ?_, rfl, rfl, by norm_num, hempty, ?_, rfl, rfl, ?_⟩
  · exact C3_missing_columns_behavior.1 ⟨none, [], some [], [], [], [], none⟩
      3 (some 0.01) [] rfl rfl
  · exact C3_missing_columns_behavior.2.2.2.1 ⟨some [], [], none, [], [], [], none⟩
      3 0.01 [] rfl rfl (by norm_num) hempty
  · exact C3_missing_columns_behavior.2.2.2.2 ⟨none, [], none, [], [], [], none⟩
      3 rfl rfl


set_option maxHeartbeats 1000000

theorem hkl5_eval : rows5.map (·.HKL) = [((1, 0, 0) : V3), (0, 1, 0), (1, 1, 0)] := by
  simp [rows5]

theorem reps5_eval :
    repsOf [((1, 0, 0) : V3), (0, 1, 0), (1, 1, 0)] ops5 =
      [(1, 0, 0), (0, 1, 0), (1, 1, 0)] := by decide

theorem equiv5_eval :
    equivOf [((1, 0, 0) : V3), (0, 1, 0), (1, 1, 0)] ops5 =
      [(((1, 0, 0) : V3), ((1, 0, 0) : V3)), ((0, 1, 0), (0, 1, 0)),
       ((1, 1, 0), (1, 1, 0))] := by decide

theorem merge5_skeleton :
    merge ops5 rows5 =
      [mergedRow (1, 0, 0) [⟨(1, 0, 0), 4, 4.41, 0.1⟩],
       mergedRow (0, 1, 0) [⟨(0, 1, 0), 4, 4.41, 0.1⟩],
       mergedRow (1, 1, 0) [⟨(1, 1, 0), 1, 1, 0.2⟩]] := by
  simp only [merge, hkl5_eval, reps5_eval, equiv5_eval]
  norm_num [rows5, List.filter, lookupV]
  exact ⟨rfl, rfl, rfl⟩

theorem sqrt441 : Real.sqrt ((441 : ℝ)/100) = 21/10 :=
  sqrt_of_sq _ _ (by norm_num) (by norm_num)

theorem sqrt4 : Real.sqrt (4 : ℝ) = 2 :=
  sqrt_of_sq _ _ (by norm_num) (by norm_num)

theorem sqrt001 : Real.sqrt ((1 : ℝ)/100) = 1/10 :=
  sqrt_of_sq _ _ (by norm_num) (by norm_num)

theorem sqrt004 : Real.sqrt ((1 : ℝ)/25) = 1/5 :=
  sqrt_of_sq _ _ (by norm_num) (by norm_num)

theorem sqrt100 : Real.sqrt (100 : ℝ) = 10 :=
  sqrt_of_sq _ _ (by norm_num) (by norm_num)

theorem sqrt25 : Real.sqrt (25 : ℝ) = 5 :=
  sqrt_of_sq _ _ (by norm_num) (by norm_num)

theorem fom1 : mergedFOM ((441 : ℝ)/100) = 21/10 := by
  rw [mergedFOM, max_eq_left (by norm_num), sqrt441]

theorem fom3 : mergedFOM (1 : ℝ) = 1 := by
  rw [mergedFOM, max_eq_left (by norm_num), Real.sqrt_one]

theorem fsm1 : mergedFSM ((441 : ℝ)/100) (1/10) = 1/42 := by
  rw [mergedFSM, if_pos (by norm_num), sqrt441]
  norm_num

theorem fsm3 : mergedFSM (1 : ℝ) (1/5) = 1/10 := by
  rw [mergedFSM, if_pos (by norm_num), Real.sqrt_one]
  norm_num

theorem merged5_cols :
    (merge ops5 rows5).map (·.HKL) = [((1, 0, 0) : V3), (0, 1, 0), (1, 1, 0)] ∧
    (merge ops5 rows5).map (·.Ic) = [4, 4, 1] ∧
    (merge ops5 rows5).map (·.Io) = [4.41, 4.41, 1] ∧
    (merge ops5 rows5).map (·.Isigma) = [0.1, 0.1, 0.2] ∧
    (merge ops5 rows5).map (·.Fc) = [2, 2, 1] ∧
    (merge ops5 rows5).map (·.Fo) = [2.1, 2.1, 1] ∧
    (merge ops5 rows5).map (·.Fsigma) = [1/42, 1/42, 0.1] := by
  rw [merge5_skeleton]
  norm_num [mergedRow, sumR]
  norm_num [fom1, fom3, fsm1, fsm3, sqrt441, sqrt4, sqrt001, sqrt004, sqrt100,
    sqrt25, Real.sqrt_one]

theorem calcRFactors_robs (t : RTable) (osf k : ℝ) (io isg : List ℝ)
    (hio : t.Io = some io) (hisg : t.Isigma = some isg) (hk : ¬ k = 0)
    (hany : ∃ x ∈ fweightCol k t.Fsigma t.Fo, x ≠ 0) :
    exceptRobs (calcRFactors t osf (some k)) =
      some (some (sumAbsDiffM (obsMask osf io isg) t.Fo t.Fc /
        sumAbsM (obsMask osf io isg) t.Fo)) := by
  unfold calcRFactors weightedCols
  rw [hisg, hio]
  simp only [Except.bind]
  rw [if_neg hk]
  simp only [Except.bind]
  rw [if_pos hany]
  rfl

theorem robs5_eval :
    exceptRobs (calcRFactors (mergedToRTable (merge ops5 rows5)) 3 (some 0.01)) =
      some (some (1/26)) := by
  obtain ⟨hHKL, hIc, hIo, hIs, hFc, hFo, hFs⟩ := merged5_cols
  have hTIo : (mergedToRTable (merge ops5 rows5)).Io = some [(4.41 : ℝ), 4.41, 1] := by
    simp [mergedToRTable, hIo]
  have hTIs : (mergedToRTable (merge ops5 rows5)).Isigma = some [(0.1 : ℝ), 0.1, 0.2] := by
    simp [mergedToRTable, hIs]
  have hTFo : (mergedToRTable (merge ops5 rows5)).Fo = [(2.1 : ℝ), 2.1, 1] := by
    simp [mergedToRTable, hFo]
  have hTFc : (mergedToRTable (merge ops5 rows5)).Fc = [(2 : ℝ), 2, 1] := by
    simp [mergedToRTable, hFc]
  have hTFs : (mergedToRTable (merge ops5 rows5)).Fsigma = [(1 : ℝ)/42, 1/42, 0.1] := by
    simp [mergedToRTable, hFs]
  have hany : ∃ x ∈ fweightCol 0.01 (mergedToRTable (merge ops5 rows5)).Fsigma
      (mergedToRTable (merge ops5 rows5)).Fo, x ≠ 0 := by
    rw [hTFs, hTFo]
    refine ⟨1 / Real.sqrt (((1 : ℝ)/42)^2 + (0.01*2.1)^2), ?_, ?_⟩
    · simp [fweightCol]
    · exact one_div_ne_zero (ne_of_gt (Real.sqrt_pos.mpr (by positivity)))
  rw [calcRFactors_robs (mergedToRTable (merge ops5 rows5)) 3 0.01
    [(4.41 : ℝ), 4.41, 1] [(0.1 : ℝ), 0.1, 0.2] hTIo hTIs (by norm_num) hany]
  have hmask : obsMask 3 [(4.41 : ℝ), 4.41, 1] [(0.1 : ℝ), 0.1, 0.2] =
      [true, true, true] := by
    norm_num [obsMask]
  rw [hTFo, hTFc, hmask]
  have hrobs : sumAbsDiffM [true, true, true] [(2.1 : ℝ), 2.1, 1] [(2 : ℝ), 2, 1] /
      sumAbsM [true, true, true] [(2.1 : ℝ), 2.1, 1] = 1/26 := by
    simp only [sumAbsDiffM, sumAbsM]
    norm_num [abs_of_nonneg]
  rw [hrobs]

/-- C5 counterexample: in the concrete three-row scenario with
identity-only symmetry, `calc_R_factors` on the merged table with
`observed_sigma_factor = 3` returns `Robs = 1/26 = 0.03846...`, which is
not approximately `0.01923` (the hand computation in the claim,
`(0.1+0.1+0)/(2.1+2.1+1.0)`, evaluates to `0.2/5.2 = 1/26`, twice the
quoted value). -/
theorem C5_counterexample :
    exceptRobs (calcRFactors (mergedToRTable (merge ops5 rows5)) 3 (some 0.01)) =
      some (some (1/26)) ∧
    ¬ |(1 : ℝ)/26 - 0.01923| ≤ 1/1000 := by
  refine ⟨robs5_eval, ?_⟩
  rw [abs_of_nonneg (by norm_num)]
  norm_num

/-- C5 amended: the merged table has 3 rows with the same Miller indices
and intensity data as the input (no merging under identity-only
symmetry), and `Robs` with `observed_sigma_factor = 3` equals the hand
computation `(0.1+0.1+0)/(2.1+2.1+1.0) = 1/26`, approximately `0.03846`
(not `0.01923`). -/
theorem C5_concrete_scenario :
    (merge ops5 rows5).length = 3 ∧
    (merge ops5 rows5).map (·.HKL) = rows5.map (·.HKL) ∧
    (merge ops5 rows5).map (·.Ic) = rows5.map (·.Ic) ∧
    (merge ops5 rows5).map (·.Io) = rows5.map (·.Io) ∧
    (merge ops5 rows5).map (·.Isigma) = rows5.map (·.Isigma) ∧
    exceptRobs (calcRFactors (mergedToRTable (merge ops5 rows5)) 3 (some 0.01)) =
      some (some (1/26)) := by
  obtain ⟨hHKL, hIc, hIo, hIs, hFc, hFo, hFs⟩ := merged5_cols
  refine ⟨?_, ?_, ?_, ?_, ?_, robs5_eval⟩
  · rw [merge5_skeleton]
    rfl
  · rw [hHKL]
    simp [rows5]
  · rw [hIc]
    norm_num [rows5]
  · rw [hIo]
    norm_num [rows5]
  · rw [hIs]
    norm_num [rows5]

end Jana
